import Mathlib

/-!
Verification development for the suffix-array / LCP construction project
(`src/suffix_array.rs`, `src/main.rs`).

The byte text is modelled as `List Nat`.  The suffix of `T` starting at
position `i` is `T.drop i`.  Suffixes are compared by `List.Lex (· < ·)`,
which realises the sentinel convention of the specification: the empty
suffix (`[]`) is lexicographically smaller than every non-empty suffix.
-/

/-- Length of the longest common prefix of two symbol sequences. -/
def lcpLen : List Nat → List Nat → Nat
  | a :: s, b :: t => if a = b then lcpLen s t + 1 else 0
  | _, _ => 0

/-- Suffix order on text positions: `i` is at most `j` when the suffix of
`T` at `i` is lexicographically at most the suffix at `j`. -/
def sufLE (T : List Nat) (i j : Nat) : Prop :=
  List.Lex (· < ·) (T.drop i) (T.drop j) ∨ T.drop i = T.drop j

instance (T : List Nat) : DecidableRel (sufLE T) := fun _ _ =>
  inferInstanceAs (Decidable (_ ∨ _))

instance (T : List Nat) : IsTotal Nat (sufLE T) where
  total i j := by
    have tri := @IsTrichotomous.trichotomous (List Nat) (List.Lex (· < ·))
      inferInstance (T.drop i) (T.drop j)
    rcases tri with h | h | h
    · exact Or.inl (Or.inl h)
    · exact Or.inl (Or.inr h)
    · exact Or.inr (Or.inl h)

instance (T : List Nat) : IsTrans Nat (sufLE T) where
  trans i j k hij hjk := by
    rcases hij with h1 | h1 <;> rcases hjk with h2 | h2
    · exact Or.inl (IsTrans.trans _ _ _ h1 h2)
    · exact Or.inl (h2 ▸ h1)
    · exact Or.inl (h1 ▸ h2)
    · exact Or.inr (h1.trans h2)

/-- Modelled from the spec: the SA-IS suffix-array construction
(`sais::sais`, whose source file `src/suffix_array/sais.rs` is absent from
the repository snapshot; only its caller `sais` in `src/suffix_array.rs`
is present).  Per the specification (§3, §4.3, §8) its output is the
permutation of `[0, n)` listing the suffixes of the text in increasing
lexicographic order under the sentinel convention, with the degenerate
cases `n = 0 ↦ []` and `n = 1 ↦ [0]`. -/
def sais (T : List Nat) : List Nat :=
  List.insertionSort (sufLE T) (List.range T.length)

theorem sais_perm (T : List Nat) : (sais T).Perm (List.range T.length) :=
  List.perm_insertionSort _ _

theorem sais_length (T : List Nat) : (sais T).length = T.length := by
  simp [sais]

theorem mem_sais {T : List Nat} {i : Nat} : i ∈ sais T ↔ i < T.length := by
  rw [(sais_perm T).mem_iff, List.mem_range]

theorem sais_nodup (T : List Nat) : (sais T).Nodup :=
  (sais_perm T).nodup_iff.mpr (List.nodup_range _)

theorem drop_len_inj {T : List Nat} {i j : Nat} (hi : i < T.length)
    (hj : j < T.length) (h : T.drop i = T.drop j) : i = j := by
  have := congrArg List.length h
  simp only [List.length_drop] at this
  omega

theorem sais_sorted_le (T : List Nat) : List.Sorted (sufLE T) (sais T) :=
  List.sorted_insertionSort _ _

theorem sais_pairwise_lex (T : List Nat) :
    List.Pairwise (fun i j => List.Lex (· < ·) (T.drop i) (T.drop j)) (sais T) := by
  have h1 : List.Pairwise (fun i j => sufLE T i j ∧ i ≠ j) (sais T) :=
    (sais_sorted_le T).and (sais_nodup T)
  refine h1.imp_of_mem ?_
  intro a b ha hb hab
  rcases hab.1 with h | h
  · exact h
  · exact absurd (drop_len_inj (mem_sais.mp ha) (mem_sais.mp hb) h) hab.2

theorem getD_of_getElem? {l : List Nat} {i a : Nat} (h : l[i]? = some a) :
    l.getD i 0 = a := by
  rw [List.getD_eq_getElem?_getD, h]; rfl

theorem sais_getD_lt {T : List Nat} {i : Nat} (h : i < T.length) :
    (sais T).getD i 0 < T.length := by
  have hl : i < (sais T).length := by rw [sais_length]; exact h
  have : (sais T).getD i 0 = (sais T)[i] :=
    getD_of_getElem? (List.getElem?_eq_getElem hl)
  rw [this]
  exact mem_sais.mp (List.getElem_mem hl)

theorem sais_lex_getD (T : List Nat) {i j : Nat} (hij : i < j)
    (hj : j < T.length) :
    List.Lex (· < ·) (T.drop ((sais T).getD i 0)) (T.drop ((sais T).getD j 0)) := by
  have hjl : j < (sais T).length := by rw [sais_length]; exact hj
  have hil : i < (sais T).length := lt_trans hij hjl
  rw [getD_of_getElem? (List.getElem?_eq_getElem hil),
    getD_of_getElem? (List.getElem?_eq_getElem hjl)]
  exact List.pairwise_iff_getElem.mp (sais_pairwise_lex T) i j hil hjl hij

/-- C1: For every byte text `T`, the suffix array produced by `sais` is
sorted: for all `i` with `0 ≤ i < |T| - 1`, the suffix `T[SA[i]..]` is
lexicographically strictly smaller than `T[SA[i+1]..]`.  `List.Lex (· < ·)`
realises the sentinel convention: the empty suffix is smaller than every
non-empty suffix. -/
theorem sais_suffixes_sorted (T : List Nat) (i : Nat) (h : i + 1 < T.length) :
    List.Lex (· < ·) (T.drop ((sais T).getD i 0))
      (T.drop ((sais T).getD (i + 1) 0)) :=
  sais_lex_getD T (Nat.lt_succ_self i) h

theorem sais_suffixes_sorted_witness :
    0 + 1 < ([1, 0, 2] : List Nat).length ∧
    List.Lex (· < ·)
      (([1, 0, 2] : List Nat).drop ((sais [1, 0, 2]).getD 0 0))
      (([1, 0, 2] : List Nat).drop ((sais [1, 0, 2]).getD (0 + 1) 0)) :=
  ⟨by decide, sais_suffixes_sorted [1, 0, 2] 0 (by decide)⟩

/-- C2: For every byte text `T`, the suffix array produced by `sais` is a
permutation of `{0, …, |T| - 1}`: it has length `|T|`, and every value in
`[0, |T|)` occurs exactly once. -/
theorem sais_is_permutation (T : List Nat) :
    (sais T).length = T.length ∧
    (sais T).Perm (List.range T.length) ∧
    ∀ v < T.length, List.count v (sais T) = 1 := by
  refine ⟨sais_length T, sais_perm T, fun v hv => ?_⟩
  rw [(sais_perm T).count_eq]
  exact List.count_eq_one_of_mem (List.nodup_range _) (List.mem_range.mpr hv)

/-- C5: `sais` on the empty text returns the empty suffix array, and `sais`
on any text of length one returns the suffix array `[0]`. -/
theorem sais_empty_singleton :
    sais [] = [] ∧ ∀ c : Nat, sais [c] = [0] :=
  ⟨rfl, fun _ => rfl⟩

/-- Translation of `SuffixArray::inverse` (`src/suffix_array.rs`): allocate
a buffer `isa` of `sa.len()` zero indices and, for every `(i, sa_i)` in the
enumeration of `sa`, write `isa[sa_i] = i`. -/
def inverse (sa : List Nat) : List Nat :=
  sa.enum.foldl (fun isa p => isa.set p.2 p.1) (List.replicate sa.length 0)

/-- Write to position `i` of `l`, failing when `i` is out of bounds. -/
def setChecked (l : List Nat) (i v : Nat) : Option (List Nat) :=
  if i < l.length then some (l.set i v) else none

/-- Translation of `SuffixArray::inverse` with the `get_unchecked_mut`
write made fallible: an out-of-bounds write (which in the Rust source
would be undefined behaviour) yields `none`. -/
def inverseChecked (sa : List Nat) : Option (List Nat) :=
  sa.enum.foldlM (fun isa p => setChecked isa p.2 p.1) (List.replicate sa.length 0)

/-- Scatter loop: for every `(k + idx, x)` in the enumeration of `l`
starting at `k`, write `acc[x] = v (k + idx)`. -/
def scatter {α : Type} (v : Nat → α) (k : Nat) (l : List Nat) (acc : List α) :
    List α :=
  (List.enumFrom k l).foldl (fun a p => a.set p.2 (v p.1)) acc

theorem scatter_nil {α : Type} (v : Nat → α) (k : Nat) (acc : List α) :
    scatter v k [] acc = acc := rfl

theorem scatter_cons {α : Type} (v : Nat → α) (k a : Nat) (l : List Nat)
    (acc : List α) :
    scatter v k (a :: l) acc = scatter v (k + 1) l (acc.set a (v k)) := by
  simp [scatter, List.enumFrom_cons]

theorem scatter_length {α : Type} (v : Nat → α) (k : Nat) (l : List Nat)
    (acc : List α) : (scatter v k l acc).length = acc.length := by
  induction l generalizing k acc with
  | nil => rfl
  | cons a l ih => rw [scatter_cons, ih, List.length_set]

theorem scatter_getElem?_not_mem {α : Type} {v : Nat → α} {l : List Nat}
    {j : Nat} (hj : j ∉ l) :
    ∀ (k : Nat) (acc : List α), (scatter v k l acc)[j]? = acc[j]? := by
  induction l with
  | nil => intro k acc; rfl
  | cons a l ih =>
    intro k acc
    rw [scatter_cons, ih (fun h => hj (List.mem_cons_of_mem a h)),
      List.getElem?_set_ne (fun h => hj (by rw [← h]; exact List.mem_cons_self a l))]

theorem scatter_getElem?_of_getElem? {α : Type} {v : Nat → α} {l : List Nat} :
    ∀ (k : Nat) (acc : List α) (p j : Nat), l.Nodup →
      (∀ x ∈ l, x < acc.length) → l[p]? = some j →
      (scatter v k l acc)[j]? = some (v (k + p)) := by
  induction l with
  | nil => intro k acc p j _ _ h; simp at h
  | cons a l ih =>
    intro k acc p j hnd hbd h
    rw [scatter_cons]
    match p with
    | 0 =>
      simp only [List.getElem?_cons_zero, Option.some.injEq] at h
      subst h
      rw [scatter_getElem?_not_mem (List.nodup_cons.mp hnd).1,
        List.getElem?_set_self (hbd a (List.mem_cons_self a l)), Nat.add_zero]
    | p + 1 =>
      simp only [List.getElem?_cons_succ] at h
      have hrec := ih (k + 1) (acc.set a (v k)) p j (List.Nodup.of_cons hnd)
        (fun x hx => by rw [List.length_set]; exact hbd x (List.mem_cons_of_mem a hx)) h
      have harith : k + 1 + p = k + (p + 1) := by omega
      rw [hrec, harith]

theorem inverse_eq_scatter (sa : List Nat) :
    inverse sa = scatter (fun i => i) 0 sa (List.replicate sa.length 0) := by
  have h : sa.enum = List.enumFrom 0 sa := rfl
  rw [inverse, h]; rfl

theorem length_inverse (sa : List Nat) : (inverse sa).length = sa.length := by
  rw [inverse_eq_scatter, scatter_length, List.length_replicate]

theorem perm_range_nodup {sa : List Nat}
    (h : sa.Perm (List.range sa.length)) : sa.Nodup :=
  h.nodup_iff.mpr (List.nodup_range _)

theorem perm_range_bound {sa : List Nat}
    (h : sa.Perm (List.range sa.length)) : ∀ x ∈ sa, x < sa.length :=
  fun _ hx => List.mem_range.mp (h.mem_iff.mp hx)

theorem inverse_getD_sa {sa : List Nat} (hperm : sa.Perm (List.range sa.length))
    {i : Nat} (hi : i < sa.length) :
    (inverse sa).getD (sa.getD i 0) 0 = i := by
  have hget : sa[i]? = some sa[i] := List.getElem?_eq_getElem hi
  have hs := @scatter_getElem?_of_getElem? Nat (fun x => x) sa 0
    (List.replicate sa.length 0) i sa[i] (perm_range_nodup hperm)
    (by simpa using perm_range_bound hperm) hget
  rw [getD_of_getElem? hget, inverse_eq_scatter, getD_of_getElem? hs]
  simp

theorem sa_getD_inverse {sa : List Nat} (hperm : sa.Perm (List.range sa.length))
    {j : Nat} (hj : j < sa.length) :
    (inverse sa).getD j 0 < sa.length ∧
    sa.getD ((inverse sa).getD j 0) 0 = j := by
  have hmem : j ∈ sa := hperm.mem_iff.mpr (List.mem_range.mpr hj)
  obtain ⟨p, hp, hpj⟩ := List.mem_iff_getElem.mp hmem
  have hget : sa[p]? = some j := by rw [List.getElem?_eq_getElem hp, hpj]
  have hs := @scatter_getElem?_of_getElem? Nat (fun x => x) sa 0
    (List.replicate sa.length 0) p j (perm_range_nodup hperm)
    (by simpa using perm_range_bound hperm) hget
  rw [inverse_eq_scatter, getD_of_getElem? hs]
  refine ⟨by simpa using hp, ?_⟩
  simp only [Nat.zero_add]
  exact getD_of_getElem? hget

/-- C3: For every suffix array `sa` that is a permutation of `[0, n)`
(`n = sa.length`), the inverse suffix array produced by
`SuffixArray::inverse` is a buffer of `n` indices satisfying both
round-trip equations `ISA[SA[i]] = i` and `SA[ISA[j]] = j`. -/
theorem inverse_round_trip (sa : List Nat)
    (h : sa.Perm (List.range sa.length)) :
    (inverse sa).length = sa.length ∧
    (∀ i < sa.length, (inverse sa).getD (sa.getD i 0) 0 = i) ∧
    (∀ j < sa.length, sa.getD ((inverse sa).getD j 0) 0 = j) :=
  ⟨length_inverse sa, fun _ hi => inverse_getD_sa h hi,
    fun _ hj => (sa_getD_inverse h hj).2⟩

theorem inverse_round_trip_witness :
    ([2, 0, 1] : List Nat).Perm (List.range ([2, 0, 1] : List Nat).length) ∧
    ((inverse [2, 0, 1]).length = ([2, 0, 1] : List Nat).length ∧
     (∀ i < ([2, 0, 1] : List Nat).length,
        (inverse [2, 0, 1]).getD (([2, 0, 1] : List Nat).getD i 0) 0 = i) ∧
     (∀ j < ([2, 0, 1] : List Nat).length,
        ([2, 0, 1] : List Nat).getD ((inverse [2, 0, 1]).getD j 0) 0 = j)) :=
  ⟨by decide, inverse_round_trip [2, 0, 1] (by decide)⟩

theorem foldlM_setChecked (l : List Nat) :
    ∀ (k : Nat) (acc : List Nat), (∀ x ∈ l, x < acc.length) →
      (List.enumFrom k l).foldlM (fun isa p => setChecked isa p.2 p.1) acc
        = some ((List.enumFrom k l).foldl (fun isa p => isa.set p.2 p.1) acc) := by
  induction l with
  | nil => intro k acc _; rfl
  | cons a l ih =>
    intro k acc hbd
    rw [List.enumFrom_cons]
    have hstep : setChecked acc a k = some (acc.set a k) :=
      if_pos (hbd a (List.mem_cons_self a l))
    simp only [List.foldlM_cons, List.foldl_cons, hstep, Option.bind_eq_bind,
      Option.some_bind]
    exact ih (k + 1) (acc.set a k)
      (fun x hx => by rw [List.length_set]; exact hbd x (List.mem_cons_of_mem a hx))

/-- C9: Under the precondition that every stored suffix-array value is
strictly less than `len`, `SuffixArray::inverse` is total and every
unchecked write `isa[sa_i]` it performs stays within the bounds of the
freshly allocated ISA buffer of length `len`: the checked run never takes
the out-of-bounds branch and agrees with the total model. -/
theorem inverse_writes_in_bounds (sa : List Nat)
    (h : ∀ x ∈ sa, x < sa.length) :
    inverseChecked sa = some (inverse sa) := by
  have hfold := foldlM_setChecked sa 0 (List.replicate sa.length 0)
    (by simpa using h)
  have henum : sa.enum = List.enumFrom 0 sa := rfl
  rw [inverseChecked, inverse, henum]
  exact hfold

theorem inverse_writes_in_bounds_witness :
    (∀ x ∈ ([1, 0] : List Nat), x < ([1, 0] : List Nat).length) ∧
    inverseChecked [1, 0] = some (inverse [1, 0]) :=
  ⟨by decide, inverse_writes_in_bounds [1, 0] (by decide)⟩

/-- Length of the longest common prefix of the suffixes at ranks `r - 1`
and `r` of the suffix array. -/
def lcpAdj (T sa : List Nat) (r : Nat) : Nat :=
  lcpLen (T.drop (sa.getD (r - 1) 0)) (T.drop (sa.getD r 0))

/-- The LCP array of the data model (spec §3): `LCP[0] = 0` and `LCP[r]`
is the length of the longest common prefix of `T[SA[r-1]..]` and
`T[SA[r]..]`. -/
def lcpArrayDef (T sa : List Nat) : List Nat :=
  (List.range sa.length).map (fun r => if r = 0 then 0 else lcpAdj T sa r)

/-- Modelled from the spec (§4.4): the naive LCP algorithm
(`lcp_array::naive`, whose source module `src/lcp_array.rs` is absent from
the repository snapshot).  For `r` in `1..n`, `LCP[r]` is computed by
directly comparing `T[SA[r-1]..]` and `T[SA[r]..]` symbol by symbol until
a mismatch or end; `LCP[0] = 0`. -/
def lcpNaive (T sa : List Nat) : List Nat :=
  (List.range sa.length).map (fun r =>
    if r = 0 then 0
    else lcpLen (T.drop (sa.getD (r - 1) 0)) (T.drop (sa.getD r 0)))

/-- The length recovered at text position `i` by the amortised LCP scans:
`0` when the suffix at `i` has rank `0`, otherwise the LCP of the suffix
at `i` with its predecessor in suffix-array order. -/
def trueLcp (T sa isa : List Nat) (i : Nat) : Nat :=
  if isa.getD i 0 = 0 then 0
  else lcpLen (T.drop (sa.getD (isa.getD i 0 - 1) 0)) (T.drop i)

/-- Modelled from the spec (§4.5): the loop of Kasai's LCP algorithm
(`lcp_array::kasai`, source module absent from the snapshot).  For each
text position `i` in order: let `r = ISA[i]`; if `r = 0` reset the running
length and continue; otherwise extend the running length against
`T[SA[r-1]..]`, store it at `LCP[r]`, and carry it decremented by one. -/
def kasaiLoop (T sa isa : List Nat) : List Nat → List Nat × Nat → List Nat × Nat
  | [], st => st
  | i :: rest, st =>
    if isa.getD i 0 = 0 then kasaiLoop T sa isa rest (st.1, 0)
    else
      kasaiLoop T sa isa rest
        (st.1.set (isa.getD i 0)
          (st.2 + lcpLen (T.drop (i + st.2))
            (T.drop (sa.getD (isa.getD i 0 - 1) 0 + st.2))),
         st.2 + lcpLen (T.drop (i + st.2))
           (T.drop (sa.getD (isa.getD i 0 - 1) 0 + st.2)) - 1)

/-- Modelled from the spec (§4.5): Kasai's algorithm over all text
positions `0..n`, starting from a zero LCP array and running length 0. -/
def lcpKasai (T sa isa : List Nat) : List Nat :=
  (kasaiLoop T sa isa (List.range T.length) (List.replicate T.length 0, 0)).1

/-- Modelled from the spec (§4.6): the Φ array, computed in one pass over
the suffix array: `Φ[SA[i]] = SA[i-1]` for `i ≥ 1`, and `Φ[SA[0]]` is
undefined (a sentinel, modelled as `none`). -/
def phiOf (sa : List Nat) : List (Option Nat) :=
  sa.enum.foldl
    (fun phi p => phi.set p.2 (if p.1 = 0 then none else some (sa.getD (p.1 - 1) 0)))
    (List.replicate sa.length none)

/-- Modelled from the spec (§4.6): the PLCP loop of the Φ algorithm.  For
each text position `i` in text order, extend the carried match length
against `T[Φ[i]..]` to produce `PLCP[i]`, carrying the length decremented
by one; at the sentinel position the length is reset. -/
def phiLoop (T : List Nat) (phi : List (Option Nat)) :
    List Nat → List Nat × Nat → List Nat × Nat
  | [], st => st
  | i :: rest, st =>
    match phi.getD i none with
    | none => phiLoop T phi rest (st.1.set i 0, 0)
    | some j =>
      phiLoop T phi rest
        (st.1.set i (st.2 + lcpLen (T.drop (i + st.2)) (T.drop (j + st.2))),
         st.2 + lcpLen (T.drop (i + st.2)) (T.drop (j + st.2)) - 1)

/-- Modelled from the spec (§4.6): the Φ LCP algorithm: compute Φ, run the
PLCP loop in text order, then permute PLCP through SA: `LCP[r] = PLCP[SA[r]]`. -/
def lcpPhi (T sa : List Nat) : List Nat :=
  (List.range sa.length).map (fun r =>
    ((phiLoop T (phiOf sa) (List.range T.length) (List.replicate T.length 0, 0)).1).getD
      (sa.getD r 0) 0)

example : sais [98, 97, 110, 97, 110, 97] = [5, 3, 1, 0, 4, 2] := by decide
example : lcpNaive [98, 97, 110, 97, 110, 97] (sais [98, 97, 110, 97, 110, 97]) =
    [0, 1, 3, 0, 0, 2] := by decide
example :
    lcpKasai [98, 97, 110, 97, 110, 97] (sais [98, 97, 110, 97, 110, 97])
      (inverse (sais [98, 97, 110, 97, 110, 97])) = [0, 1, 3, 0, 0, 2] := by decide
example : lcpPhi [98, 97, 110, 97, 110, 97] (sais [98, 97, 110, 97, 110, 97]) =
    [0, 1, 3, 0, 0, 2] := by decide

theorem lcpLen_nil_left (t : List Nat) : lcpLen [] t = 0 := by
  cases t <;> rfl

theorem lcpLen_nil_right (s : List Nat) : lcpLen s [] = 0 := by
  cases s <;> rfl

theorem lcpLen_cons (a b : Nat) (s t : List Nat) :
    lcpLen (a :: s) (b :: t) = if a = b then lcpLen s t + 1 else 0 := rfl

theorem lcpLen_comm : ∀ s t : List Nat, lcpLen s t = lcpLen t s
  | [], t => by rw [lcpLen_nil_left, lcpLen_nil_right]
  | a :: s, [] => by rw [lcpLen_nil_left, lcpLen_nil_right]
  | a :: s, b :: t => by
    rw [lcpLen_cons, lcpLen_cons, lcpLen_comm s t]
    by_cases h : a = b
    · rw [if_pos h, if_pos h.symm]
    · rw [if_neg h, if_neg (fun hba => h hba.symm)]

theorem lcpLen_le_length_left : ∀ s t : List Nat, lcpLen s t ≤ s.length
  | [], t => by rw [lcpLen_nil_left]; exact Nat.zero_le _
  | a :: s, [] => by rw [lcpLen_nil_right]; exact Nat.zero_le _
  | a :: s, b :: t => by
    rw [lcpLen_cons]
    by_cases h : a = b
    · rw [if_pos h, List.length_cons]
      exact Nat.succ_le_succ (lcpLen_le_length_left s t)
    · rw [if_neg h]; exact Nat.zero_le _

theorem head_eq_of_lcpLen_pos {a b : Nat} {s t : List Nat}
    (h : 1 ≤ lcpLen (a :: s) (b :: t)) : a = b := by
  by_contra hne
  rw [lcpLen_cons, if_neg hne] at h
  omega

theorem lcpLen_drop : ∀ (l : Nat) (s t : List Nat), l ≤ lcpLen s t →
    lcpLen s t = l + lcpLen (s.drop l) (t.drop l)
  | 0, s, t, _ => by simp
  | l + 1, [], t, h => by rw [lcpLen_nil_left] at h; omega
  | l + 1, a :: s, [], h => by rw [lcpLen_nil_right] at h; omega
  | l + 1, a :: s, b :: t, h => by
    by_cases hab : a = b
    · rw [lcpLen_cons, if_pos hab] at h ⊢
      rw [List.drop_succ_cons, List.drop_succ_cons]
      have hrec := lcpLen_drop l s t (by omega)
      omega
    · rw [lcpLen_cons, if_neg hab] at h; omega

theorem lex_cons_strip {a : Nat} {s t : List Nat}
    (h : List.Lex (· < ·) (a :: s) (a :: t)) : List.Lex (· < ·) s t :=
  List.Lex.cons_iff.mp h

theorem lcpLen_mono_of_lex : ∀ {x y z : List Nat},
    List.Lex (· < ·) x y → List.Lex (· < ·) y z → lcpLen x z ≤ lcpLen y z := by
  intro x
  induction x with
  | nil => intro y z _ _; rw [lcpLen_nil_left]; exact Nat.zero_le _
  | cons a x ih =>
    intro y z hxy hyz
    match z with
    | [] => rw [lcpLen_nil_right]; exact Nat.zero_le _
    | c :: z =>
      by_cases hac : a = c
      · subst hac
        match y with
        | [] => exact absurd hxy (List.Lex.not_nil_right _ _)
        | b :: y =>
          cases hxy with
          | rel hab =>
            cases hyz with
            | rel hbc => exact absurd (lt_trans hab hbc) (lt_irrefl a)
            | cons h2 => exact absurd hab (lt_irrefl a)
          | cons h1 =>
            cases hyz with
            | rel hbc => exact absurd hbc (lt_irrefl a)
            | cons h2 =>
              rw [lcpLen_cons, lcpLen_cons, if_pos rfl, if_pos rfl]
              exact Nat.succ_le_succ (ih h1 h2)
      · rw [lcpLen_cons, if_neg hac]; exact Nat.zero_le _

theorem drop_cons_getD {T : List Nat} {j : Nat} (h : j < T.length) :
    T.drop j = T.getD j 0 :: T.drop (j + 1) := by
  rw [List.drop_eq_getElem_cons h, getD_of_getElem? (List.getElem?_eq_getElem h)]

/-- Bundle of the suffix-array invariants (spec §3): correct length,
permutation of `[0, n)`, and suffixes listed in strictly increasing
lexicographic order. -/
def SortedSA (T sa : List Nat) : Prop :=
  sa.length = T.length ∧ sa.Perm (List.range sa.length) ∧
  List.Pairwise (fun i j => List.Lex (· < ·) (T.drop i) (T.drop j)) sa

theorem sais_sortedSA (T : List Nat) : SortedSA T (sais T) := by
  refine ⟨sais_length T, ?_, sais_pairwise_lex T⟩
  rw [sais_length]; exact sais_perm T

theorem perm_range_getD_lt {sa : List Nat}
    (hperm : sa.Perm (List.range sa.length)) {p : Nat} (hp : p < sa.length) :
    sa.getD p 0 < sa.length := by
  rw [getD_of_getElem? (List.getElem?_eq_getElem hp)]
  exact perm_range_bound hperm _ (List.getElem_mem hp)

theorem sortedSA_lex_getD {T sa : List Nat} (hS : SortedSA T sa) {p q : Nat}
    (hpq : p < q) (hq : q < sa.length) :
    List.Lex (· < ·) (T.drop (sa.getD p 0)) (T.drop (sa.getD q 0)) := by
  have hp : p < sa.length := lt_trans hpq hq
  rw [getD_of_getElem? (List.getElem?_eq_getElem hp),
    getD_of_getElem? (List.getElem?_eq_getElem hq)]
  exact List.pairwise_iff_getElem.mp hS.2.2 p q hp hq hpq

theorem sortedSA_rank_lt {T sa : List Nat} (hS : SortedSA T sa) {q i : Nat}
    (hq : q < sa.length) (hi : i < sa.length)
    (hlex : List.Lex (· < ·) (T.drop q) (T.drop i)) :
    (inverse sa).getD q 0 < (inverse sa).getD i 0 := by
  obtain ⟨hpq, hsq⟩ := sa_getD_inverse hS.2.1 hq
  obtain ⟨hpi, hsi⟩ := sa_getD_inverse hS.2.1 hi
  rcases Nat.lt_trichotomy ((inverse sa).getD q 0) ((inverse sa).getD i 0)
    with h | h | h
  · exact h
  · exfalso
    rw [h, hsi] at hsq
    rw [hsq] at hlex
    exact IsAsymm.asymm _ _ hlex hlex
  · exfalso
    have := sortedSA_lex_getD hS h hpq
    rw [hsq, hsi] at this
    exact IsAsymm.asymm _ _ hlex this

theorem sortedSA_pred_max {T sa : List Nat} (hS : SortedSA T sa) {q i : Nat}
    (hq : q < sa.length) (hi : i < sa.length)
    (hlex : List.Lex (· < ·) (T.drop q) (T.drop i)) :
    (inverse sa).getD i 0 ≠ 0 ∧
    lcpLen (T.drop q) (T.drop i) ≤
      lcpLen (T.drop (sa.getD ((inverse sa).getD i 0 - 1) 0)) (T.drop i) := by
  have hrank := sortedSA_rank_lt hS hq hi hlex
  obtain ⟨hpq_lt, hsq⟩ := sa_getD_inverse hS.2.1 hq
  obtain ⟨hr_lt, hsi⟩ := sa_getD_inverse hS.2.1 hi
  refine ⟨by omega, ?_⟩
  rcases Nat.lt_or_ge ((inverse sa).getD q 0) ((inverse sa).getD i 0 - 1)
    with hcase | hcase
  · have h1 := sortedSA_lex_getD hS hcase
      (show (inverse sa).getD i 0 - 1 < sa.length by omega)
    have h2 := sortedSA_lex_getD hS
      (show (inverse sa).getD i 0 - 1 < (inverse sa).getD i 0 by omega) hr_lt
    rw [hsq] at h1
    rw [hsi] at h2
    exact lcpLen_mono_of_lex h1 h2
  · have heq : (inverse sa).getD q 0 = (inverse sa).getD i 0 - 1 := by omega
    rw [← heq, hsq]

theorem trueLcp_amortize {T sa : List Nat} (hS : SortedSA T sa) {i : Nat}
    (hi1 : i + 1 < sa.length) :
    trueLcp T sa (inverse sa) i - 1 ≤ trueLcp T sa (inverse sa) (i + 1) := by
  have hi : i < sa.length := by omega
  by_cases hz : (inverse sa).getD i 0 = 0
  · rw [trueLcp, if_pos hz]
    exact Nat.zero_le _
  · have htl : trueLcp T sa (inverse sa) i =
        lcpLen (T.drop (sa.getD ((inverse sa).getD i 0 - 1) 0)) (T.drop i) := by
      rw [trueLcp, if_neg hz]
    obtain ⟨hr_lt, hsi⟩ := sa_getD_inverse hS.2.1 hi
    by_cases hsmall : trueLcp T sa (inverse sa) i ≤ 1
    · omega
    · push_neg at hsmall
      have hlenT : T.length = sa.length := hS.1.symm
      have hj_lt : sa.getD ((inverse sa).getD i 0 - 1) 0 < sa.length :=
        perm_range_getD_lt hS.2.1 (by omega)
      have hbnd : trueLcp T sa (inverse sa) i ≤
          T.length - sa.getD ((inverse sa).getD i 0 - 1) 0 := by
        have hb := lcpLen_le_length_left
          (T.drop (sa.getD ((inverse sa).getD i 0 - 1) 0)) (T.drop i)
        rw [List.length_drop] at hb
        omega
      have hj1 : sa.getD ((inverse sa).getD i 0 - 1) 0 + 1 < sa.length := by omega
      have hdropj : T.drop (sa.getD ((inverse sa).getD i 0 - 1) 0) =
          T.getD (sa.getD ((inverse sa).getD i 0 - 1) 0) 0 ::
            T.drop (sa.getD ((inverse sa).getD i 0 - 1) 0 + 1) :=
        drop_cons_getD (by omega)
      have hdropi : T.drop i = T.getD i 0 :: T.drop (i + 1) :=
        drop_cons_getD (by omega)
      have hpos : 1 ≤ lcpLen
          (T.getD (sa.getD ((inverse sa).getD i 0 - 1) 0) 0 ::
            T.drop (sa.getD ((inverse sa).getD i 0 - 1) 0 + 1))
          (T.getD i 0 :: T.drop (i + 1)) := by
        rw [← hdropj, ← hdropi]
        omega
      have hhead := head_eq_of_lcpLen_pos hpos
      have hstrip_len :
          lcpLen (T.drop (sa.getD ((inverse sa).getD i 0 - 1) 0 + 1))
            (T.drop (i + 1)) = trueLcp T sa (inverse sa) i - 1 := by
        have hx : lcpLen (T.drop (sa.getD ((inverse sa).getD i 0 - 1) 0))
            (T.drop i) =
            lcpLen (T.drop (sa.getD ((inverse sa).getD i 0 - 1) 0 + 1))
              (T.drop (i + 1)) + 1 := by
          rw [hdropj, hdropi, lcpLen_cons, if_pos hhead]
        omega
      have hlex0 : List.Lex (· < ·)
          (T.drop (sa.getD ((inverse sa).getD i 0 - 1) 0)) (T.drop i) := by
        have hx := sortedSA_lex_getD hS
          (show (inverse sa).getD i 0 - 1 < (inverse sa).getD i 0 by omega) hr_lt
        rw [hsi] at hx
        exact hx
      have hlex1 : List.Lex (· < ·)
          (T.drop (sa.getD ((inverse sa).getD i 0 - 1) 0 + 1))
          (T.drop (i + 1)) := by
        rw [hdropj, hdropi, hhead] at hlex0
        exact lex_cons_strip hlex0
      obtain ⟨hz1, hmax⟩ := sortedSA_pred_max hS hj1 hi1 hlex1
      have hgoal : trueLcp T sa (inverse sa) (i + 1) =
          lcpLen (T.drop (sa.getD ((inverse sa).getD (i + 1) 0 - 1) 0))
            (T.drop (i + 1)) := by
        rw [trueLcp, if_neg hz1]
      rw [hgoal]
      omega

theorem trueLcp_step {T sa : List Nat} {i l : Nat}
    (hz : (inverse sa).getD i 0 ≠ 0)
    (hl : l ≤ trueLcp T sa (inverse sa) i) :
    l + lcpLen (T.drop (i + l))
        (T.drop (sa.getD ((inverse sa).getD i 0 - 1) 0 + l))
      = trueLcp T sa (inverse sa) i := by
  rw [trueLcp, if_neg hz] at hl ⊢
  rw [lcpLen_comm (T.drop (sa.getD ((inverse sa).getD i 0 - 1) 0)) (T.drop i)]
    at hl ⊢
  have hdrop := lcpLen_drop l (T.drop i)
    (T.drop (sa.getD ((inverse sa).getD i 0 - 1) 0)) hl
  rw [List.drop_drop, List.drop_drop] at hdrop
  omega

theorem getD_set_self {l : List Nat} {r v : Nat} (h : r < l.length) :
    (l.set r v).getD r 0 = v :=
  getD_of_getElem? (List.getElem?_set_self h)

theorem getD_set_ne {l : List Nat} {r r' v : Nat} (h : r ≠ r') :
    (l.set r v).getD r' 0 = l.getD r' 0 := by
  rw [List.getD_eq_getElem?_getD, List.getD_eq_getElem?_getD,
    List.getElem?_set_ne h]

theorem eq_range_map {n : Nat} {g : Nat → Nat} {res : List Nat}
    (hlen : res.length = n) (h : ∀ m < n, res.getD m 0 = g m) :
    res = (List.range n).map g := by
  apply List.ext_getElem?
  intro m
  by_cases hm : m < n
  · have hmr : m < res.length := by omega
    have hg : res[m] = g m := by
      have hx := h m hm
      rw [getD_of_getElem? (List.getElem?_eq_getElem hmr)] at hx
      exact hx
    rw [List.getElem?_eq_getElem hmr, List.getElem?_map,
      List.getElem?_range hm, hg]
    rfl
  · rw [List.getElem?_eq_none (by omega), List.getElem?_eq_none
      (by rw [List.length_map, List.length_range]; omega)]

theorem kasaiLoop_nil {T sa isa : List Nat} (st : List Nat × Nat) :
    kasaiLoop T sa isa [] st = st := rfl

theorem kasaiLoop_cons_zero {T sa isa : List Nat} {i : Nat} {rest : List Nat}
    {lcp : List Nat} {l : Nat} (h : isa.getD i 0 = 0) :
    kasaiLoop T sa isa (i :: rest) (lcp, l) = kasaiLoop T sa isa rest (lcp, 0) := by
  simp only [kasaiLoop]
  rw [if_pos h]

theorem kasaiLoop_cons_pos {T sa isa : List Nat} {i : Nat} {rest : List Nat}
    {lcp : List Nat} {l : Nat} (h : isa.getD i 0 ≠ 0) :
    kasaiLoop T sa isa (i :: rest) (lcp, l) =
      kasaiLoop T sa isa rest
        (lcp.set (isa.getD i 0)
          (l + lcpLen (T.drop (i + l)) (T.drop (sa.getD (isa.getD i 0 - 1) 0 + l))),
         l + lcpLen (T.drop (i + l)) (T.drop (sa.getD (isa.getD i 0 - 1) 0 + l)) - 1) := by
  simp only [kasaiLoop]
  rw [if_neg h]

theorem kasaiLoop_spec {T sa : List Nat} (hS : SortedSA T sa) :
    ∀ (k s : Nat) (lcp : List Nat) (l : Nat),
      s + k = sa.length →
      lcp.length = sa.length →
      (∀ r' < sa.length, lcp.getD r' 0 =
        if r' ≠ 0 ∧ sa.getD r' 0 < s then lcpAdj T sa r' else 0) →
      (s < sa.length → l ≤ trueLcp T sa (inverse sa) s) →
      (kasaiLoop T sa (inverse sa) (List.range' s k) (lcp, l)).1.length = sa.length ∧
      ∀ r' < sa.length,
        (kasaiLoop T sa (inverse sa) (List.range' s k) (lcp, l)).1.getD r' 0 =
          if r' = 0 then 0 else lcpAdj T sa r' := by
  intro k
  induction k with
  | zero =>
    intro s lcp l hsk hlen hmap _
    rw [List.range'_zero, kasaiLoop_nil]
    refine ⟨hlen, fun r' hr' => ?_⟩
    rw [hmap r' hr']
    have hlt := perm_range_getD_lt hS.2.1 hr'
    by_cases h0 : r' = 0
    · rw [if_neg (fun hc => hc.1 h0), if_pos h0]
    · rw [if_pos ⟨h0, by omega⟩, if_neg h0]
  | succ k ih =>
    intro s lcp l hsk hlen hmap hl
    have hs : s < sa.length := by omega
    rw [List.range'_succ]
    by_cases hz : (inverse sa).getD s 0 = 0
    · rw [kasaiLoop_cons_zero hz]
      apply ih (s + 1) lcp 0 (by omega) hlen
      · intro r' hr'
        rw [hmap r' hr']
        by_cases h0 : r' = 0
        · rw [if_neg (fun hc => hc.1 h0), if_neg (fun hc => hc.1 h0)]
        · have hne : sa.getD r' 0 ≠ s := by
            intro heq
            have hx := inverse_getD_sa hS.2.1 hr'
            rw [heq, hz] at hx
            exact h0 hx.symm
          by_cases hlt : sa.getD r' 0 < s
          · rw [if_pos ⟨h0, hlt⟩, if_pos ⟨h0, by omega⟩]
          · rw [if_neg (fun hc => hlt hc.2), if_neg (fun hc => by omega)]
      · intro _
        exact Nat.zero_le _
    · rw [kasaiLoop_cons_pos hz]
      have hstep := trueLcp_step hz (hl hs)
      have htt : trueLcp T sa (inverse sa) s =
          lcpLen (T.drop (sa.getD ((inverse sa).getD s 0 - 1) 0)) (T.drop s) := by
        rw [trueLcp, if_neg hz]
      obtain ⟨hr_lt, hss⟩ := sa_getD_inverse hS.2.1 hs
      apply ih (s + 1)
        (lcp.set ((inverse sa).getD s 0)
          (l + lcpLen (T.drop (s + l))
            (T.drop (sa.getD ((inverse sa).getD s 0 - 1) 0 + l))))
        (l + lcpLen (T.drop (s + l))
          (T.drop (sa.getD ((inverse sa).getD s 0 - 1) 0 + l)) - 1)
        (by omega) (by rw [List.length_set]; exact hlen)
      · intro r' hr'
        by_cases hrr : r' = (inverse sa).getD s 0
        · subst hrr
          rw [getD_set_self (by rw [hlen]; exact hr_lt)]
          rw [if_pos ⟨hz, by omega⟩]
          have hadj : lcpAdj T sa ((inverse sa).getD s 0) =
              lcpLen (T.drop (sa.getD ((inverse sa).getD s 0 - 1) 0)) (T.drop s) := by
            rw [lcpAdj, hss]
          rw [hadj, hstep, htt]
        · rw [getD_set_ne (fun h => hrr h.symm), hmap r' hr']
          by_cases h0 : r' = 0
          · rw [if_neg (fun hc => hc.1 h0), if_neg (fun hc => hc.1 h0)]
          · have hne : sa.getD r' 0 ≠ s := by
              intro heq
              have hx := inverse_getD_sa hS.2.1 hr'
              rw [heq] at hx
              exact hrr hx.symm
            by_cases hlt : sa.getD r' 0 < s
            · rw [if_pos ⟨h0, hlt⟩, if_pos ⟨h0, by omega⟩]
            · rw [if_neg (fun hc => hlt hc.2), if_neg (fun hc => by omega)]
      · intro hs1
        rw [hstep]
        exact trueLcp_amortize hS (by omega)

theorem lcpKasai_eq {T sa : List Nat} (hS : SortedSA T sa) :
    lcpKasai T sa (inverse sa) = lcpArrayDef T sa := by
  have hn : T.length = sa.length := hS.1.symm
  have hspec := kasaiLoop_spec hS sa.length 0 (List.replicate sa.length 0) 0
    (by omega) (by simp)
    (fun r' hr' => by
      rw [List.getD_eq_getElem?_getD, List.getElem?_replicate, if_pos hr']
      rw [if_neg (fun hc => Nat.not_lt_zero _ hc.2)]
      rfl)
    (fun _ => Nat.zero_le _)
  rw [lcpKasai, hn, List.range_eq_range', lcpArrayDef]
  exact eq_range_map hspec.1 hspec.2

theorem getD_of_getElem?_gen {α : Type} {l : List α} {i : Nat} {a d : α}
    (h : l[i]? = some a) : l.getD i d = a := by
  rw [List.getD_eq_getElem?_getD, h]; rfl

theorem phiOf_eq_scatter (sa : List Nat) :
    phiOf sa =
      scatter (fun idx => if idx = 0 then none else some (sa.getD (idx - 1) 0))
        0 sa (List.replicate sa.length none) := rfl

theorem phiOf_getD {sa : List Nat} (hperm : sa.Perm (List.range sa.length))
    {q : Nat} (hq : q < sa.length) :
    (phiOf sa).getD q none =
      if (inverse sa).getD q 0 = 0 then none
      else some (sa.getD ((inverse sa).getD q 0 - 1) 0) := by
  have hmem : q ∈ sa := hperm.mem_iff.mpr (List.mem_range.mpr hq)
  obtain ⟨p, hp, hpj⟩ := List.mem_iff_getElem.mp hmem
  have hget : sa[p]? = some q := by rw [List.getElem?_eq_getElem hp, hpj]
  have hs := @scatter_getElem?_of_getElem? (Option Nat)
    (fun idx => if idx = 0 then none else some (sa.getD (idx - 1) 0)) sa 0
    (List.replicate sa.length none) p q (perm_range_nodup hperm)
    (by simpa using perm_range_bound hperm) hget
  have hisa : (inverse sa).getD q 0 = p := by
    have hx := inverse_getD_sa hperm hp
    rw [getD_of_getElem? hget] at hx
    exact hx
  rw [phiOf_eq_scatter, getD_of_getElem?_gen hs, hisa]
  simp

theorem phiLoop_nil {T : List Nat} {phi : List (Option Nat)}
    (st : List Nat × Nat) : phiLoop T phi [] st = st := rfl

theorem phiLoop_cons_none {T : List Nat} {phi : List (Option Nat)} {i : Nat}
    {rest : List Nat} {plcp : List Nat} {l : Nat} (h : phi.getD i none = none) :
    phiLoop T phi (i :: rest) (plcp, l) = phiLoop T phi rest (plcp.set i 0, 0) := by
  simp only [phiLoop]
  rw [h]

theorem phiLoop_cons_some {T : List Nat} {phi : List (Option Nat)} {i j : Nat}
    {rest : List Nat} {plcp : List Nat} {l : Nat} (h : phi.getD i none = some j) :
    phiLoop T phi (i :: rest) (plcp, l) =
      phiLoop T phi rest
        (plcp.set i (l + lcpLen (T.drop (i + l)) (T.drop (j + l))),
         l + lcpLen (T.drop (i + l)) (T.drop (j + l)) - 1) := by
  simp only [phiLoop]
  rw [h]

theorem phiLoop_spec {T sa : List Nat} (hS : SortedSA T sa) :
    ∀ (k s : Nat) (plcp : List Nat) (l : Nat),
      s + k = sa.length →
      plcp.length = sa.length →
      (∀ q < sa.length, plcp.getD q 0 =
        if q < s then trueLcp T sa (inverse sa) q else 0) →
      (s < sa.length → l ≤ trueLcp T sa (inverse sa) s) →
      (phiLoop T (phiOf sa) (List.range' s k) (plcp, l)).1.length = sa.length ∧
      ∀ q < sa.length,
        (phiLoop T (phiOf sa) (List.range' s k) (plcp, l)).1.getD q 0 =
          trueLcp T sa (inverse sa) q := by
  intro k
  induction k with
  | zero =>
    intro s plcp l hsk hlen hmap _
    rw [List.range'_zero, phiLoop_nil]
    refine ⟨hlen, fun q hq => ?_⟩
    rw [hmap q hq, if_pos (by omega)]
  | succ k ih =>
    intro s plcp l hsk hlen hmap hl
    have hs : s < sa.length := by omega
    rw [List.range'_succ]
    by_cases hz : (inverse sa).getD s 0 = 0
    · have hphi : (phiOf sa).getD s none = none := by
        rw [phiOf_getD hS.2.1 hs, if_pos hz]
      rw [phiLoop_cons_none hphi]
      apply ih (s + 1) (plcp.set s 0) 0 (by omega)
        (by rw [List.length_set]; exact hlen)
      · intro q hq
        by_cases hqs : q = s
        · subst hqs
          rw [getD_set_self (by omega), if_pos (by omega), trueLcp, if_pos hz]
        · rw [getD_set_ne (fun h => hqs h.symm), hmap q hq]
          by_cases hlt : q < s
          · rw [if_pos hlt, if_pos (by omega)]
          · rw [if_neg hlt, if_neg (by omega)]
      · intro _
        exact Nat.zero_le _
    · have hphi : (phiOf sa).getD s none =
          some (sa.getD ((inverse sa).getD s 0 - 1) 0) := by
        rw [phiOf_getD hS.2.1 hs, if_neg hz]
      rw [phiLoop_cons_some hphi]
      have hstep := trueLcp_step hz (hl hs)
      apply ih (s + 1)
        (plcp.set s (l + lcpLen (T.drop (s + l))
          (T.drop (sa.getD ((inverse sa).getD s 0 - 1) 0 + l))))
        (l + lcpLen (T.drop (s + l))
          (T.drop (sa.getD ((inverse sa).getD s 0 - 1) 0 + l)) - 1)
        (by omega) (by rw [List.length_set]; exact hlen)
      · intro q hq
        by_cases hqs : q = s
        · subst hqs
          rw [getD_set_self (by omega), if_pos (by omega), hstep]
        · rw [getD_set_ne (fun h => hqs h.symm), hmap q hq]
          by_cases hlt : q < s
          · rw [if_pos hlt, if_pos (by omega)]
          · rw [if_neg hlt, if_neg (by omega)]
      · intro hs1
        rw [hstep]
        exact trueLcp_amortize hS (by omega)

theorem lcpPhi_eq {T sa : List Nat} (hS : SortedSA T sa) :
    lcpPhi T sa = lcpArrayDef T sa := by
  have hn : T.length = sa.length := hS.1.symm
  have hspec := phiLoop_spec hS sa.length 0 (List.replicate sa.length 0) 0
    (by omega) (by simp)
    (fun q hq => by
      rw [List.getD_eq_getElem?_getD, List.getElem?_replicate, if_pos hq,
        if_neg (by omega)]
      rfl)
    (fun _ => Nat.zero_le _)
  have hloop :
      (phiLoop T (phiOf sa) (List.range T.length)
        (List.replicate T.length 0, 0)).1 =
      (phiLoop T (phiOf sa) (List.range' 0 sa.length)
        (List.replicate sa.length 0, 0)).1 := by
    rw [hn, List.range_eq_range']
  rw [lcpPhi, lcpArrayDef]
  apply List.map_congr_left
  intro r hr
  rw [List.mem_range] at hr
  have hsar : sa.getD r 0 < sa.length := perm_range_getD_lt hS.2.1 hr
  rw [hloop, hspec.2 (sa.getD r 0) hsar]
  have hisa : (inverse sa).getD (sa.getD r 0) 0 = r := inverse_getD_sa hS.2.1 hr
  rw [trueLcp, hisa]
  by_cases h0 : r = 0
  · rw [if_pos h0, if_pos h0]
  · rw [if_neg h0, if_neg h0, lcpAdj]

/-- C4: For every byte text `T` and its constructed suffix array, the
three LCP algorithms agree element-wise, and each equals the array with
`LCP[0] = 0` and `LCP[r]` the length of the longest common prefix of
`T[SA[r-1]..]` and `T[SA[r]..]` for `r ≥ 1` (`lcpArrayDef`). -/
theorem lcp_algorithms_agree (T : List Nat) :
    lcpNaive T (sais T) = lcpArrayDef T (sais T) ∧
    lcpKasai T (sais T) (inverse (sais T)) = lcpArrayDef T (sais T) ∧
    lcpPhi T (sais T) = lcpArrayDef T (sais T) :=
  ⟨rfl, lcpKasai_eq (sais_sortedSA T), lcpPhi_eq (sais_sortedSA T)⟩

/-- Translation of `result::MemoryResult` (`src/suffix_array.rs`): a value
together with the accumulated auxiliary memory in bytes. -/
structure MemoryResult (α : Type) where
  value : α
  memory : Nat

/-- Translation of `result::Builder` (`src/suffix_array.rs`); the phantom
type parameter of the Rust struct carries no data and is dropped. -/
structure Builder where
  memory : Nat

/-- Translation of `MemoryResult::builder`: a fresh builder with memory 0. -/
def MemoryResult.builder : Builder := ⟨0⟩

/-- Translation of `Builder::add_values::<S>(num)`:
`memory += num * size_of::<S>()`; the element size is an explicit argument. -/
def Builder.addValues (b : Builder) (num sizeS : Nat) : Builder :=
  ⟨b.memory + num * sizeS⟩

/-- Translation of `MemoryResult::add_to`: add the child result's memory to
the parent builder and hand back the child's value. -/
def MemoryResult.addTo {α : Type} (r : MemoryResult α) (b : Builder) :
    Builder × α :=
  (⟨b.memory + r.memory⟩, r.value)

/-- Translation of `Builder::build`: a `MemoryResult` carrying exactly the
accumulated memory. -/
def Builder.build {α : Type} (b : Builder) (v : α) : MemoryResult α :=
  ⟨v, b.memory⟩

theorem builder_foldl_addValues (recs : List (Nat × Nat)) :
    ∀ b : Builder,
      (recs.foldl (fun b p => b.addValues p.1 p.2) b).memory
        = b.memory + (recs.map (fun p => p.1 * p.2)).sum := by
  induction recs with
  | nil => intro b; simp
  | cons p recs ih =>
    intro b
    rw [List.foldl_cons, ih, List.map_cons, List.sum_cons]
    simp only [Builder.addValues]
    omega

/-- C8: The memory metric is a cumulative sum: a fresh builder starts at 0,
`add_values` adds `num * size_of::<S>()`, `add_to` adds the child's memory to
the parent builder, `build` returns the accumulated total, and folding any
sequence of recorded allocations yields their sum. -/
theorem memory_builder_accumulates :
    MemoryResult.builder.memory = 0 ∧
    (∀ (b : Builder) (num sizeS : Nat),
      (b.addValues num sizeS).memory = b.memory + num * sizeS) ∧
    (∀ (b : Builder) (r : MemoryResult Nat),
      (r.addTo b).1.memory = b.memory + r.memory) ∧
    (∀ (b : Builder) (v : Nat), (b.build v).memory = b.memory) ∧
    (∀ recs : List (Nat × Nat),
      (recs.foldl (fun b p => b.addValues p.1 p.2) MemoryResult.builder).memory
        = (recs.map (fun p => p.1 * p.2)).sum) := by
  refine ⟨rfl, fun _ _ _ => rfl, fun _ _ => rfl, fun _ _ => rfl, fun recs => ?_⟩
  rw [builder_foldl_addValues]
  simp [MemoryResult.builder]

/-- Modelled from the spec (§4.1, §7): construction with an index type of
unsigned width `w` succeeds iff the unsigned maximum strictly exceeds the
text length, i.e. `n < 2^w - 1` (the body of `sais` that reports
`IndexTooNarrow` is absent from the sources). -/
def fitsIndex (w n : Nat) : Bool := decide (n < 2 ^ w - 1)

/-- Mirror of `try_run_sa::<Idx>` in `src/main.rs`, reduced to the width
selection: the width used on success, `none` on failure. -/
def tryRunSa (w n : Nat) : Option Nat :=
  if fitsIndex w n then some w else none

/-- Translation of `run` (`src/main.rs`): try the 32-bit, the 64-bit, then
the native-width unsigned index type in order, and fail with the
diagnostic naming the text length when all fail. -/
def runHarness (native n : Nat) : Except String Nat :=
  match ((tryRunSa 32 n).orElse (fun _ => tryRunSa 64 n)).orElse
      (fun _ => tryRunSa native n) with
  | some w => Except.ok w
  | none =>
    Except.error ("cannot find index type for text of length " ++ toString n)

/-- Exit status of the process: `main` returns `Result<TestResults, String>`;
`Ok` terminates with status 0 (`ExitCode::SUCCESS` in `TestResults::report`),
`Err` with a non-zero status (the `Termination` impl for `Result`). -/
def exitStatus {α : Type} : Except String α → Nat
  | Except.ok _ => 0
  | Except.error _ => 1

/-- C6: The harness tries index widths in the order 32, 64, native, uses
the first for which the construction succeeds (the text length fits the
width) for the entire run, and if none succeeds it fails with a diagnostic
that mentions the text length and a non-zero exit status. -/
theorem harness_index_width_selection (native n : Nat) :
    runHarness native n =
      (if fitsIndex 32 n then Except.ok 32
       else if fitsIndex 64 n then Except.ok 64
       else if fitsIndex native n then Except.ok native
       else Except.error
         ("cannot find index type for text of length " ++ toString n)) ∧
    (fitsIndex 32 n = false → fitsIndex 64 n = false →
      fitsIndex native n = false →
      exitStatus (runHarness native n) ≠ 0 ∧
      ∃ pre : String, runHarness native n = Except.error (pre ++ toString n)) := by
  have hrun : runHarness native n =
      (if fitsIndex 32 n then Except.ok 32
       else if fitsIndex 64 n then Except.ok 64
       else if fitsIndex native n then Except.ok native
       else Except.error
         ("cannot find index type for text of length " ++ toString n)) := by
    by_cases h32 : fitsIndex 32 n <;> by_cases h64 : fitsIndex 64 n <;>
      by_cases hN : fitsIndex native n <;>
      simp [runHarness, tryRunSa, h32, h64, hN, Option.orElse]
  refine ⟨hrun, fun h32 h64 hN => ?_⟩
  rw [hrun, h32, h64, hN]
  exact ⟨by simp [exitStatus], "cannot find index type for text of length ", rfl⟩

theorem harness_index_width_selection_witness :
    (fitsIndex 32 (2 ^ 64) = false ∧ fitsIndex 64 (2 ^ 64) = false ∧
      fitsIndex 16 (2 ^ 64) = false) ∧
    (exitStatus (runHarness 16 (2 ^ 64)) ≠ 0 ∧
      ∃ pre : String, runHarness 16 (2 ^ 64) = Except.error (pre ++ toString (2 ^ 64))) :=
  ⟨⟨by decide, by decide, by decide⟩,
    (harness_index_width_selection 16 (2 ^ 64)).2 (by decide) (by decide) (by decide)⟩

set_option maxHeartbeats 1000000 in
theorem digitChar_ne_sep (m : Nat) :
    Nat.digitChar m ≠ '\n' ∧ Nat.digitChar m ≠ '\t' ∧ Nat.digitChar m ≠ ' ' := by
  match m with
  | 0 => exact ⟨by decide, by decide, by decide⟩
  | 1 => exact ⟨by decide, by decide, by decide⟩
  | 2 => exact ⟨by decide, by decide, by decide⟩
  | 3 => exact ⟨by decide, by decide, by decide⟩
  | 4 => exact ⟨by decide, by decide, by decide⟩
  | 5 => exact ⟨by decide, by decide, by decide⟩
  | 6 => exact ⟨by decide, by decide, by decide⟩
  | 7 => exact ⟨by decide, by decide, by decide⟩
  | 8 => exact ⟨by decide, by decide, by decide⟩
  | 9 => exact ⟨by decide, by decide, by decide⟩
  | 10 => exact ⟨by decide, by decide, by decide⟩
  | 11 => exact ⟨by decide, by decide, by decide⟩
  | 12 => exact ⟨by decide, by decide, by decide⟩
  | 13 => exact ⟨by decide, by decide, by decide⟩
  | 14 => exact ⟨by decide, by decide, by decide⟩
  | 15 => exact ⟨by decide, by decide, by decide⟩
  | (m + 16) =>
    have h : Nat.digitChar (m + 16) = '*' := rfl
    rw [h]
    exact ⟨by decide, by decide, by decide⟩

theorem mem_toDigitsCore {c : Char} : ∀ (fuel n : Nat) (ds : List Char),
    c ∈ Nat.toDigitsCore 10 fuel n ds → c ∈ ds ∨ ∃ m, c = Nat.digitChar m := by
  intro fuel
  induction fuel with
  | zero => intro n ds h; exact Or.inl h
  | succ fuel ih =>
    intro n ds h
    rw [Nat.toDigitsCore] at h
    by_cases hz : n / 10 = 0
    · rw [if_pos hz] at h
      rcases List.mem_cons.mp h with hc | hc
      · exact Or.inr ⟨n % 10, hc⟩
      · exact Or.inl hc
    · rw [if_neg hz] at h
      rcases ih (n / 10) (Nat.digitChar (n % 10) :: ds) h with hc | hc
      · rcases List.mem_cons.mp hc with hc2 | hc2
        · exact Or.inr ⟨n % 10, hc2⟩
        · exact Or.inl hc2
      · exact Or.inr hc

theorem count_toString_eq_zero {c : Char} (n : Nat)
    (hc : ∀ m, c ≠ Nat.digitChar m) : List.count c (toString n).data = 0 := by
  rw [List.count_eq_zero]
  intro hmem
  have hdata : (toString n).data = Nat.toDigits 10 n := rfl
  rw [hdata, Nat.toDigits] at hmem
  rcases mem_toDigitsCore _ _ _ hmem with h | ⟨m, hm⟩
  · exact absurd h (List.not_mem_nil c)
  · exact hc m hm

theorem count_newline_toString (n : Nat) :
    List.count '\n' (toString n).data = 0 :=
  count_toString_eq_zero n (fun m h => (digitChar_ne_sep m).1 h.symm)

theorem count_tab_toString (n : Nat) :
    List.count '\t' (toString n).data = 0 :=
  count_toString_eq_zero n (fun m h => (digitChar_ne_sep m).2.1 h.symm)

theorem count_space_toString (n : Nat) :
    List.count ' ' (toString n).data = 0 :=
  count_toString_eq_zero n (fun m h => (digitChar_ne_sep m).2.2 h.symm)

/-- Translation of `TestResults` (`src/main.rs`): per-stage construction
times in milliseconds and the accumulated auxiliary memory in bytes. -/
structure TestResults where
  saTimeMs : Nat
  saMemory : Nat
  lcpNaiveTimeMs : Nat
  lcpKasaiTimeMs : Nat
  lcpPhiTimeMs : Nat

/-- Translation of `<TestResults as Termination>::report` (`src/main.rs`):
the text written to standard error (`writeln!` appends the final newline)
and the exit code (`ExitCode::SUCCESS`, i.e. 0).  In the Rust format
string each backslash at the end of a line swallows the newline and the
following indentation, so the pieces are joined by the single space
preceding each backslash; the only tab character is the `\t` escape
inside the name tag. -/
def report (t : TestResults) : String × Nat :=
  ("RESULT name=Pascal\tMehnert sa_construction_time=" ++ toString t.saTimeMs
    ++ " sa_construction_memory=" ++ toString (t.saMemory / (1 <<< 20))
    ++ " lcp_naive_construction_time=" ++ toString t.lcpNaiveTimeMs
    ++ " lcp_kasai_construction_time=" ++ toString t.lcpKasaiTimeMs
    ++ " lcp_phi_construction_time=" ++ toString t.lcpPhiTimeMs
    ++ "\n", 0)

/-- C7 fails on the code: in the emitted line the six fields are separated
by single spaces, not tabs.  For the all-zero results the line contains
exactly one tab character (the `\t` inside `name=Pascal\tMehnert`),
whereas six tab-separated fields would require five tabs; consequently no
decomposition into six tab-separated fields exists. -/
theorem report_not_tab_separated :
    List.count '\t' (report ⟨0, 0, 0, 0, 0⟩).1.data = 1 ∧
    ¬ ∃ f1 f2 f3 f4 f5 f6 : String,
      (report ⟨0, 0, 0, 0, 0⟩).1 =
        f1 ++ "\t" ++ f2 ++ "\t" ++ f3 ++ "\t" ++ f4 ++ "\t" ++ f5 ++ "\t" ++ f6 := by
  constructor
  · decide
  · rintro ⟨f1, f2, f3, f4, f5, f6, h⟩
    have hcount := congrArg (fun s => List.count '\t' s.data) h
    simp only [String.data_append, List.count_append] at hcount
    have hone : List.count '\t' (report ⟨0, 0, 0, 0, 0⟩).1.data = 1 := by decide
    rw [hone] at hcount
    have htab : List.count '\t' ("\t" : String).data = 1 := by decide
    rw [htab] at hcount
    omega

/-- C7 (amended): on success the harness writes exactly one line to
standard error — the text ends in the single newline appended by
`writeln!` — and exits with status 0; the `RESULT` marker, the name tag
and the five metric fields are separated by the line's six single spaces,
and the line's only tab character is the one inside the name tag
`name=Pascal\tMehnert`. -/
theorem report_line_format (t : TestResults) :
    (report t).2 = 0 ∧
    List.count '\n' (report t).1.data = 1 ∧
    (report t).1.data.getLast? = some '\n' ∧
    List.count '\t' (report t).1.data = 1 ∧
    List.count ' ' (report t).1.data = 6 := by
  have h1 : (report t).1 =
      "RESULT name=Pascal\tMehnert sa_construction_time=" ++ toString t.saTimeMs
        ++ " sa_construction_memory=" ++ toString (t.saMemory / (1 <<< 20))
        ++ " lcp_naive_construction_time=" ++ toString t.lcpNaiveTimeMs
        ++ " lcp_kasai_construction_time=" ++ toString t.lcpKasaiTimeMs
        ++ " lcp_phi_construction_time=" ++ toString t.lcpPhiTimeMs
        ++ "\n" := rfl
  refine ⟨rfl, ?_, ?_, ?_, ?_⟩
  · rw [h1]
    simp only [String.data_append, List.count_append, count_newline_toString]
    decide
  · rw [h1]
    simp only [String.data_append]
    exact List.getLast?_concat _
  · rw [h1]
    simp only [String.data_append, List.count_append, count_tab_toString]
    decide
  · rw [h1]
    simp only [String.data_append, List.count_append, count_space_toString]
    decide

/-- C10: The reported `sa_construction_memory` value is the truncating
integer division of the recorded auxiliary bytes by `2^20`; in particular
a run whose recorded allocation is below `2^20` bytes prints
`sa_construction_memory=0`. -/
theorem memory_field_truncating_div (t : TestResults) :
    (∃ pre post : String, (report t).1 =
      pre ++ (" sa_construction_memory=" ++ toString (t.saMemory / 2 ^ 20)) ++ post) ∧
    (t.saMemory < 2 ^ 20 →
      ∃ pre post : String, (report t).1 =
        pre ++ " sa_construction_memory=0" ++ post) := by
  have h20 : (1 <<< 20) = 2 ^ 20 := by decide
  have h1 : (report t).1 =
      "RESULT name=Pascal\tMehnert sa_construction_time=" ++ toString t.saTimeMs
        ++ " sa_construction_memory=" ++ toString (t.saMemory / (1 <<< 20))
        ++ " lcp_naive_construction_time=" ++ toString t.lcpNaiveTimeMs
        ++ " lcp_kasai_construction_time=" ++ toString t.lcpKasaiTimeMs
        ++ " lcp_phi_construction_time=" ++ toString t.lcpPhiTimeMs
        ++ "\n" := rfl
  constructor
  · refine ⟨"RESULT name=Pascal\tMehnert sa_construction_time="
        ++ toString t.saTimeMs,
      " lcp_naive_construction_time=" ++ toString t.lcpNaiveTimeMs
        ++ " lcp_kasai_construction_time=" ++ toString t.lcpKasaiTimeMs
        ++ " lcp_phi_construction_time=" ++ toString t.lcpPhiTimeMs
        ++ "\n", ?_⟩
    rw [h1, h20]
    simp only [String.append_assoc]
  · intro hlt
    have hdiv : t.saMemory / (1 <<< 20) = 0 := by
      rw [h20]
      exact Nat.div_eq_of_lt hlt
    refine ⟨"RESULT name=Pascal\tMehnert sa_construction_time="
        ++ toString t.saTimeMs,
      " lcp_naive_construction_time=" ++ toString t.lcpNaiveTimeMs
        ++ " lcp_kasai_construction_time=" ++ toString t.lcpKasaiTimeMs
        ++ " lcp_phi_construction_time=" ++ toString t.lcpPhiTimeMs
        ++ "\n", ?_⟩
    have hzero : toString ((0 : Nat)) = "0" := rfl
    have hm : ∀ x : String,
        " sa_construction_memory=" ++ ("0" ++ x) =
          " sa_construction_memory=0" ++ x := by
      intro x
      rw [← String.append_assoc]
      rfl
    rw [h1, hdiv, hzero]
    simp only [String.append_assoc]
    rw [hm]

theorem memory_field_truncating_div_witness :
    (5 : Nat) < 2 ^ 20 ∧
    (∃ pre post : String, (report ⟨0, 5, 0, 0, 0⟩).1 =
      pre ++ " sa_construction_memory=0" ++ post) :=
  ⟨by decide, (memory_field_truncating_div ⟨0, 5, 0, 0, 0⟩).2 (by decide)⟩
